import Mathlib

/-!
Shallow embedding of the `packs` repository core:
the pack data model (`src/packs.rs`), the pack registry (`src/packs/pack_set.rs`),
the violation ledger (`src/packs/package_todo.rs`), and the reference
resolution pipeline with its alternate extraction path
(`src/packs/reference_extractor.rs`).

Modelling conventions:
* Rust `PathBuf` is modelled as `List String` of path components, so that
  `Path::starts_with` (whole-component prefix) becomes the list relation `<+:`.
* Rust `HashMap`/`HashSet` are modelled as lists in iteration order; the
  iteration order of a hash container is arbitrary, so theorems that depend on
  it quantify over permutations of the list.
* Rust byte-wise string comparison is modelled by the lexicographic order on
  `String.toList` (the pack names involved are ASCII, where the two agree).
* A Rust panic (`unwrap` on `None`) is modelled by an `Option`-valued function
  returning `none`.
-/

namespace PacksModel

/-- Model of `SourceLocation` from `packs.rs`. -/
structure SourceLocation where
  line : Nat
  column : Nat
deriving DecidableEq

/-- Model of `ViolationGroup` from `package_todo.rs`: the `violations` key is parsed
into `violation_types`. -/
structure ViolationGroup where
  violation_types : List String
  files : List String
deriving DecidableEq

/-- Model of `PackageTodo` from `package_todo.rs`: a map from defining pack name to a
map from constant name to a `ViolationGroup`; both `HashMap`s are modelled as
association lists in iteration order. -/
structure PackageTodo where
  violations_by_pack : List (String × List (String × ViolationGroup))
deriving DecidableEq

/-- Model of `CheckerSetting` from `packs.rs`: `False` is the `#[default]` variant. -/
inductive CheckerSetting where
  | False
  | True
  | Strict
deriving DecidableEq

instance : Inhabited CheckerSetting := ⟨CheckerSetting.False⟩

/-- Model of `Pack` from `packs.rs`. `yml` is the manifest path (`package.yml`) as a
component list; the `HashSet<String>` fields are lists in iteration order.
Equality is the derived structural equality over all fields, matching the
Rust `#[derive(PartialEq, Eq)]` on `Pack`. The Rust `Hash` impl, by contrast,
hashes only `name` (see `Pack.hashKey`). -/
structure Pack where
  yml : List String
  name : String
  relative_path : List String
  dependencies : List String
  ignored_dependencies : List String
  package_todo : PackageTodo
  enforce_dependencies : CheckerSetting
deriving DecidableEq

/-- The manual `impl Hash for Pack` hashes exactly the `name` field. -/
def Pack.hashKey (p : Pack) : String := p.name

/-- Model of `ViolationIdentifier` (from the checker module), with the fields that
`Pack::all_violations` populates. -/
structure ViolationIdentifier where
  violation_type : String
  file : String
  constant_name : String
  referencing_pack_name : String
  defining_pack_name : String
deriving DecidableEq

/-- Model of `Pack::all_violations` from `packs.rs`: for every defining-pack entry of
the ledger, for every constant entry, for every violation type, for every
file, push one identifier. -/
def Pack.all_violations (p : Pack) : List ViolationIdentifier :=
  p.package_todo.violations_by_pack.flatMap fun dp =>
    dp.2.flatMap fun cg =>
      cg.2.violation_types.flatMap fun vt =>
        cg.2.files.map fun f =>
          { violation_type := vt
            file := f
            constant_name := cg.1
            referencing_pack_name := p.name
            defining_pack_name := dp.1 }

/-- The comparator of `PackSet::build` as a "not ordered after" relation:
the Rust closure is
`Ord::cmp(&packb.name.len(), &packa.name.len()).then_with(|| packa.name.cmp(&packb.name))`
(descending name length, ties by ascending name), and `packLe a b` says the
comparator does not return `Greater` on `(a, b)`. -/
def packLe (a b : Pack) : Prop :=
  b.name.length < a.name.length ∨
    (b.name.length = a.name.length ∧ a.name.toList ≤ b.name.toList)

instance : DecidableRel packLe := fun a b => by
  unfold packLe; infer_instance

/-- Model of `HashMap::insert` on a string-keyed association list: overwrite semantics
(the new binding shadows and removes any previous binding of the key). -/
def hmInsert (m : List (String × Pack)) (k : String) (v : Pack) :
    List (String × Pack) :=
  (k, v) :: m.filter fun kv => !(kv.1 == k)

/-- Model of `HashMap::get` on the association-list model. -/
def hmGet (m : List (String × Pack)) (k : String) : Option Pack :=
  (m.find? fun kv => kv.1 == k).map Prod.snd

/-- Model of `PackSet` from `pack_set.rs`. -/
structure PackSet where
  packs : List Pack
  indexed_packs : List (String × Pack)
deriving DecidableEq

/-- Model of `PackSet::build` from `pack_set.rs`: stably sort the iteration order of
the input `HashSet<Pack>` by the comparator (itertools `sorted_by` is a
stable sort, modelled by `List.insertionSort`), then index every pack by its
name, later inserts overwriting earlier ones. Note that `build` itself does
not deduplicate: deduplication happens when the input `HashSet<Pack>` is
formed, under full structural equality (`hashSetOfList`). -/
def PackSet.build (packs : List Pack) : PackSet :=
  let sorted := List.insertionSort packLe packs
  { packs := sorted
    indexed_packs := sorted.foldl (fun m p => hmInsert m p.name p) [] }

/-- The loop of `PackSet::for_file`: first pack whose manifest directory
(`pack.yml.parent()`, modelled as `yml.dropLast`) is a whole-component
path prefix of the file (`Path::starts_with`). -/
def for_file_packs : List Pack → List String → Option String
  | [], _ => none
  | p :: rest, path =>
    if p.yml.dropLast <+: path then some p.name else for_file_packs rest path

/-- Model of `PackSet::for_file` from `pack_set.rs`. -/
def PackSet.for_file (ps : PackSet) (absolute_file_path : List String) :
    Option String :=
  for_file_packs ps.packs absolute_file_path

/-- Model of `PackSet::for_pack` from `pack_set.rs`: an index lookup followed by
`.unwrap()`; the panic on a missing name is modelled by `none`. -/
def PackSet.for_pack? (ps : PackSet) (pack_name : String) : Option Pack :=
  hmGet ps.indexed_packs pack_name

/-- Building a Rust `HashSet<Pack>` from an iteration of packs: an insert of
a pack structurally equal (`PartialEq` over all fields) to one already present
keeps the existing element; an insert of a new value appends it. `Hash` by
name only puts same-named packs in one bucket but does not merge them. -/
def hashSetOfList (l : List Pack) : List Pack :=
  l.foldl (fun acc p => if p ∈ acc then acc else acc ++ [p]) []

/-- Model of `default_enforce_dependencies` from `packs.rs`. -/
def default_enforce_dependencies : String := "false"

/-- A pack manifest as read from disk: every field may be absent. -/
structure Manifest where
  dependencies : Option (List String)
  ignored_dependencies : Option (List String)
  enforce_dependencies : Option String

/-- Model of `RawPack` from `packs.rs` after serde's defaulting. -/
structure RawPack where
  dependencies : List String
  ignored_dependencies : List String
  enforce_dependencies : String
deriving DecidableEq

/-- Deserializing a manifest into a `RawPack`: the two `#[serde(default)]`
fields default to empty, and `enforce_dependencies` defaults to
`default_enforce_dependencies()` per `#[serde(default = ...)]`. -/
def rawPackOfManifest (m : Manifest) : RawPack :=
  { dependencies := m.dependencies.getD []
    ignored_dependencies := m.ignored_dependencies.getD []
    enforce_dependencies :=
      m.enforce_dependencies.getD default_enforce_dependencies }

/-- Modelled from the spec: the conversion from the `RawPack`
`enforce_dependencies` string to a `CheckerSetting` lives in
`configuration.rs`, which is not among the provided sources; per the spec the
admissible states are `false | true | strict`, anything else being a
malformed manifest field (fatal), modelled by `none`. -/
def parseCheckerSetting : String → Option CheckerSetting
  | "false" => some CheckerSetting.False
  | "true" => some CheckerSetting.True
  | "strict" => some CheckerSetting.Strict
  | _ => none

/-- Model of `UnresolvedReference` (from the extractor module; spec §3): the literal
referenced name, the enclosing namespace nesting, and a source location. -/
structure UnresolvedReference where
  name : String
  namespace_path : List String
  location : SourceLocation
deriving DecidableEq

/-- Model of `ProcessedFile` from `packs.rs`. -/
structure ProcessedFile where
  absolute_path : List String
  unresolved_references : List UnresolvedReference
deriving DecidableEq

/-- Model of `Reference` (from `checker::reference`, with the fields assembled in
`reference_extractor.rs`). -/
structure Reference where
  constant_name : String
  defining_pack_name : Option String
  relative_defining_file : Option String
  referencing_pack_name : String
  relative_referencing_file : String
  source_location : SourceLocation
deriving DecidableEq

/-- Model of `get_all_references` from `reference_extractor.rs` (resolution stage):
the parallel `try_fold`/`try_reduce` over processed files is modelled by the
equivalent sequential left fold, the merge being associative concatenation.
`Reference::from_unresolved_reference` is not among the provided sources and
is abstracted by the `resolve` parameter, which returns the candidate
references for one unresolved reference or an error. -/
def get_all_references {E : Type}
    (resolve : UnresolvedReference → List String → Except E (List Reference))
    (processed_files_to_check : List ProcessedFile) :
    Except E (List Reference) :=
  processed_files_to_check.foldlM
    (fun acc processed_file =>
      processed_file.unresolved_references.foldlM
        (fun a unresolved_ref =>
          (resolve unresolved_ref processed_file.absolute_path).map
            fun refs => a ++ refs)
        acc)
    []

/-- Rust `str::contains` (substring containment), on the char lists. -/
def strContainsSub (hay needle : String) : Prop :=
  needle.toList <:+: hay.toList

instance (h n : String) : Decidable (strContainsSub h n) := by
  unfold strContainsSub; exact List.decidableInfix _ _

/-- Ascending byte-lexicographic string order (`Vec::<String>::sort`),
modelled on the char lists. -/
def nameLe (a b : String) : Prop := a.toList ≤ b.toList

instance : DecidableRel nameLe := fun a b => by
  unfold nameLe; infer_instance

/-- Model of `PackageNames::new` from `reference_extractor.rs`: the registry's pack
names, sorted ascending. -/
def PackageNames.new (packs : List Pack) : List String :=
  List.insertionSort nameLe (packs.map Pack.name)

/-- The loop of `PackageNames::find_pack_name`: iterate the sorted names
carrying `pack_name` (initially `"."`) and `containing` (initially `false`);
a contained name longer than the current candidate replaces it and sets
`containing`; the first non-contained name after `containing` was set breaks
the loop. -/
def find_pack_name_loop (file_path : String) :
    List String → String → Bool → String
  | [], pack_name, _ => pack_name
  | pn :: rest, pack_name, containing =>
    if strContainsSub file_path pn then
      if pack_name.length < pn.length then
        find_pack_name_loop file_path rest pn true
      else
        find_pack_name_loop file_path rest pack_name containing
    else
      if containing then pack_name
      else find_pack_name_loop file_path rest pack_name containing

/-- Model of `PackageNames::find_pack_name` from `reference_extractor.rs`: always
wraps its result in `Some`. -/
def find_pack_name (names : List String) (file_path : String) :
    Option String :=
  some (find_pack_name_loop file_path names "." false)

/-- Model of `HashMap::insert` on the string-to-string extra-fields map. -/
def efInsert (m : List (String × String)) (k v : String) :
    List (String × String) :=
  (k, v) :: m.filter fun kv => !(kv.1 == k)

/-- Model of `HashMap::get` on the extra-fields map. -/
def efGet (m : List (String × String)) (k : String) : Option String :=
  (m.find? fun kv => kv.1 == k).map Prod.snd

/-- Model of `PackageNames::extra_reference_fields_fn` from `reference_extractor.rs`. -/
def extra_reference_fields_fn (names : List String)
    (relative_referencing_file : String)
    (relative_defining_file : Option String) : List (String × String) :=
  let extra_fields : List (String × String) := []
  let extra_fields :=
    match find_pack_name names relative_referencing_file with
    | some referencing_pack =>
        efInsert extra_fields "referencing_pack_name" referencing_pack
    | none => extra_fields
  match relative_defining_file with
  | some defining_file =>
      match find_pack_name names defining_file with
      | some defining_pack =>
          efInsert extra_fields "defining_pack_name" defining_pack
      | none => extra_fields
  | none => extra_fields

/-- A reference as returned by the external `ruby_references` capability in
`get_all_references_new`: the assembled base fields plus the string-keyed
`extra_fields` produced by the injected callback. -/
structure RawReference where
  constant_name : String
  relative_defining_file : Option String
  relative_referencing_file : String
  source_location : SourceLocation
  extra_fields : List (String × String)
deriving DecidableEq

/-- The `filter_map` at the end of `get_all_references_new`: a reference
whose `extra_fields` lack `referencing_pack_name` is dropped; otherwise the
packs-level `Reference` is assembled from the raw reference. -/
def filter_pks_references (refs : List RawReference) : List Reference :=
  refs.filterMap fun r =>
    match efGet r.extra_fields "referencing_pack_name" with
    | none => none
    | some referencing_pack_name =>
        some { constant_name := r.constant_name
               defining_pack_name := efGet r.extra_fields "defining_pack_name"
               relative_defining_file := r.relative_defining_file
               referencing_pack_name := referencing_pack_name
               relative_referencing_file := r.relative_referencing_file
               source_location := r.source_location }

/-- Model of `get_all_references_new` from `reference_extractor.rs`, applied to the
raw references produced by the external
`ruby_references::reference::all_references` capability: per that
capability's interface contract (spec §6) it invokes the injected callback
on every reference's referencing and defining relative paths and attaches
the returned extra fields; the result is then filtered and assembled. -/
def get_all_references_new (packs : List Pack) (raw : List RawReference) :
    List Reference :=
  let names := PackageNames.new packs
  filter_pks_references
    (raw.map fun r =>
      { r with
          extra_fields :=
            extra_reference_fields_fn names r.relative_referencing_file
              r.relative_defining_file })

/-- Specification-side definition, stated from the spec's words (§4.4) for
comparison with `find_pack_name`: resolve a file path to the longest pack
name contained as a substring anywhere in the path, over the alphabetically
sorted pack names, defaulting to `"."`. -/
def longest_contained_pack_name (names : List String) (file_path : String) :
    Option String :=
  some ((List.insertionSort nameLe names).foldl
    (fun pack_name pn =>
      if strContainsSub file_path pn ∧ pack_name.length < pn.length then pn
      else pack_name)
    ".")

/-- A YAML-like value tree, target of the serde round-trip model. -/
inductive Yaml where
  | str : String → Yaml
  | seq : List Yaml → Yaml
  | map : List (String × Yaml) → Yaml

/-- Modelled from the spec: `PackageTodo` serialization. The repository
derives only `Deserialize` for the ledger; the on-disk ledger format is
given by spec §6 and by the serde attributes on the struct: a group
serializes as `{violations: [...], files: [...]}` (the `violation_types`
field is renamed to `violations`), and the ledger's own map is flattened
(`#[serde(flatten)]`) so the top-level keys are the defining pack names. -/
def serializeGroup (g : ViolationGroup) : Yaml :=
  Yaml.map
    [("violations", Yaml.seq (g.violation_types.map Yaml.str)),
     ("files", Yaml.seq (g.files.map Yaml.str))]

/-- Modelled from the spec: ledger serialization, see `serializeGroup`. -/
def serializePackageTodo (t : PackageTodo) : Yaml :=
  Yaml.map
    (t.violations_by_pack.map fun dp =>
      (dp.1, Yaml.map (dp.2.map fun cg => (cg.1, serializeGroup cg.2))))

/-- A YAML scalar read back as a string. -/
def yamlString? : Yaml → Option String
  | Yaml.str s => some s
  | _ => none

/-- Key lookup in a YAML mapping. -/
def yamlLookup (kvs : List (String × Yaml)) (k : String) : Option Yaml :=
  (kvs.find? fun kv => kv.1 == k).map Prod.snd

/-- Option-valued traversal of a list (serde deserializes a sequence
elementwise and fails as soon as one element fails). -/
def mapMOption {α β : Type} (f : α → Option β) : List α → Option (List β)
  | [] => some []
  | a :: l =>
    match f a with
    | none => none
    | some b =>
      match mapMOption f l with
      | none => none
      | some bs => some (b :: bs)

/-- Deserializing a `ViolationGroup` (serde derive semantics: look up the
`violations` and `files` keys, each a sequence of strings). -/
def deserializeGroup : Yaml → Option ViolationGroup
  | Yaml.map kvs =>
      match yamlLookup kvs "violations", yamlLookup kvs "files" with
      | some (Yaml.seq vs), some (Yaml.seq fs) =>
          match mapMOption yamlString? vs, mapMOption yamlString? fs with
          | some violation_types, some files =>
              some { violation_types := violation_types, files := files }
          | _, _ => none
      | _, _ => none
  | _ => none

/-- Deserializing the per-defining-pack map of constant name to group. -/
def deserializeConstMap : Yaml → Option (List (String × ViolationGroup))
  | Yaml.map kvs =>
      mapMOption (fun kv => (deserializeGroup kv.2).map fun g => (kv.1, g)) kvs
  | _ => none

/-- Deserializing a `PackageTodo` (the flattened top-level map keyed by
defining pack name). -/
def deserializePackageTodo : Yaml → Option PackageTodo
  | Yaml.map kvs =>
      (mapMOption (fun kv =>
          (deserializeConstMap kv.2).map fun m => (kv.1, m)) kvs).map
        fun entries => { violations_by_pack := entries }
  | _ => none

/-- Test fixture: the pack `packs/foo` of the spec's examples. -/
def fooPack : Pack :=
  { yml := ["packs", "foo", "package.yml"]
    name := "packs/foo"
    relative_path := ["packs", "foo"]
    dependencies := []
    ignored_dependencies := []
    package_todo := ⟨[]⟩
    enforce_dependencies := CheckerSetting.False }

/-- Test fixture: the nested pack `packs/foo/bar` of the spec's examples. -/
def fooBarPack : Pack :=
  { yml := ["packs", "foo", "bar", "package.yml"]
    name := "packs/foo/bar"
    relative_path := ["packs", "foo", "bar"]
    dependencies := []
    ignored_dependencies := []
    package_todo := ⟨[]⟩
    enforce_dependencies := CheckerSetting.False }

/-- Test fixture: a pack named `packs/foo` with one dependency set. -/
def samePackA : Pack := { fooPack with dependencies := ["packs/bar"] }

/-- Test fixture: a pack named `packs/foo` with a different dependency set. -/
def samePackB : Pack := { fooPack with dependencies := ["packs/baz"] }

/-- Test fixture: the ledger of the spec's `all_violations` example. -/
def exampleTodo : PackageTodo :=
  ⟨[("packs/bar",
     [("::Bar",
       { violation_types := ["dependency"]
         files := ["packs/foo/app/services/foo.rb"] }),
      ("::Baz",
       { violation_types := ["dependency", "privacy"]
         files := ["packs/foo/app/services/foo.rb"] })])]⟩

/-- Test fixture: the referencing pack of the `all_violations` example. -/
def examplePack : Pack := { fooPack with package_todo := exampleTodo }

/-- Test fixture: a resolver that fails on references named `Bad`. -/
def badResolve : UnresolvedReference → List String →
    Except String (List Reference) :=
  fun ur _ => if ur.name = "Bad" then Except.error "boom" else Except.ok []

/-- Test fixture: a processed file holding one failing reference. -/
def badFile : ProcessedFile :=
  { absolute_path := ["a.rb"]
    unresolved_references := [{ name := "Bad", namespace_path := []
                                location := { line := 1, column := 1 } }] }

end PacksModel

namespace PacksModel

/-! ## Helper lemmas -/

theorem for_file_packs_eq_none_iff (l : List Pack) (path : List String) :
    for_file_packs l path = none ↔ ∀ p ∈ l, ¬ p.yml.dropLast <+: path := by
  induction l with
  | nil => simp [for_file_packs]
  | cons a l ih =>
    by_cases h : a.yml.dropLast <+: path
    · simp [for_file_packs, h]
    · simp [for_file_packs, h, ih]

theorem for_file_packs_eq_some_iff (l : List Pack) (path : List String)
    (n : String) :
    for_file_packs l path = some n ↔
      ∃ pre p post, l = pre ++ p :: post ∧ p.yml.dropLast <+: path ∧
        p.name = n ∧ ∀ q ∈ pre, ¬ q.yml.dropLast <+: path := by
  induction l with
  | nil =>
    simp only [for_file_packs]
    constructor
    · intro h; exact absurd h (by simp)
    · rintro ⟨pre, p, post, hl, -⟩
      exact (List.cons_ne_nil p post (List.append_eq_nil.mp hl.symm).2).elim
  | cons a l ih =>
    by_cases h : a.yml.dropLast <+: path
    · simp only [for_file_packs, h, if_pos, Option.some_inj]
      constructor
      · intro hn
        exact ⟨[], a, l, rfl, h, hn, by simp⟩
      · rintro ⟨pre, p, post, hl, hp, hn, hpre⟩
        cases pre with
        | nil =>
          simp only [List.nil_append, List.cons.injEq] at hl
          rw [hl.1]; exact hn
        | cons q pre' =>
          simp only [List.cons_append, List.cons.injEq] at hl
          exact absurd (hl.1 ▸ h) (hpre q (List.mem_cons_self q pre'))
    · simp only [for_file_packs, h, if_neg, not_false_iff, ih]
      constructor
      · rintro ⟨pre, p, post, hl, hp, hn, hpre⟩
        refine ⟨a :: pre, p, post, by simp [hl], hp, hn, ?_⟩
        intro q hq
        rcases List.mem_cons.mp hq with rfl | hq
        · exact h
        · exact hpre q hq
      · rintro ⟨pre, p, post, hl, hp, hn, hpre⟩
        cases pre with
        | nil =>
          simp only [List.nil_append, List.cons.injEq] at hl
          exact absurd (hl.1 ▸ hp) h
        | cons q pre' =>
          simp only [List.cons_append, List.cons.injEq] at hl
          exact ⟨pre', p, post, hl.2, hp, hn, fun q' hq' =>
            hpre q' (List.mem_cons_of_mem q hq')⟩

theorem mapMOption_yamlString?_map_str (l : List String) :
    mapMOption yamlString? (l.map Yaml.str) = some l := by
  induction l with
  | nil => rfl
  | cons a l ih => simp [mapMOption, yamlString?, ih]

theorem deserializeGroup_serializeGroup (g : ViolationGroup) :
    deserializeGroup (serializeGroup g) = some g := by
  simp [serializeGroup, deserializeGroup, yamlLookup, List.find?,
    mapMOption_yamlString?_map_str]

theorem deserializeConstMap_serialize (l : List (String × ViolationGroup)) :
    deserializeConstMap
      (Yaml.map (l.map fun cg => (cg.1, serializeGroup cg.2))) = some l := by
  simp only [deserializeConstMap]
  induction l with
  | nil => rfl
  | cons a l ih =>
    simp only [List.map_cons, mapMOption, deserializeGroup_serializeGroup,
      Option.map_some', ih]

theorem mapMOption_deserialize_top
    (l : List (String × List (String × ViolationGroup))) :
    mapMOption
      (fun kv => (deserializeConstMap kv.2).map fun m => (kv.1, m))
      (l.map fun dp =>
        (dp.1, Yaml.map (dp.2.map fun cg => (cg.1, serializeGroup cg.2)))) =
      some l := by
  induction l with
  | nil => rfl
  | cons a l ih =>
    simp only [List.map_cons, mapMOption, deserializeConstMap_serialize,
      Option.map_some', ih]

/-! ## Claim C1 -/

/-- C1: `for_file` iterates the registry's packs in order and returns the
name of the first pack whose root directory (`yml.parent()`) is a
whole-component path prefix of the file; it returns `none` when no pack's
root is a prefix. Prefix matching is at directory-component boundaries, so
with only pack `packs/foo` present, the file `packs/foo_extra/x.rb` has no
owner; and with `packs/foo` and `packs/foo/bar` both present, `build` orders
the nested pack first and a file under `packs/foo/bar` resolves to it, never
to the ancestor. -/
theorem for_file_first_match_spec :
    (∀ (ps : PackSet) (path : List String),
      (ps.for_file path = none ↔ ∀ p ∈ ps.packs, ¬ p.yml.dropLast <+: path) ∧
      (∀ n, ps.for_file path = some n ↔
        ∃ pre p post, ps.packs = pre ++ p :: post ∧
          p.yml.dropLast <+: path ∧ p.name = n ∧
          ∀ q ∈ pre, ¬ q.yml.dropLast <+: path)) ∧
    (PackSet.build [fooPack]).for_file ["packs", "foo_extra", "x.rb"] = none ∧
    (PackSet.build [fooPack, fooBarPack]).for_file
        ["packs", "foo", "bar", "app", "m.rb"] = some "packs/foo/bar" ∧
    (PackSet.build [fooPack, fooBarPack]).packs = [fooBarPack, fooPack] := by
  refine ⟨fun ps path => ⟨?_, fun n => ?_⟩, by decide, by decide, by decide⟩
  · exact for_file_packs_eq_none_iff ps.packs path
  · exact for_file_packs_eq_some_iff ps.packs path n

theorem all_violations_len_inner (mk : String → String → ViolationIdentifier)
    (types files : List String) :
    (types.flatMap fun vt => files.map (mk vt)).length =
      types.length * files.length := by
  induction types with
  | nil => simp
  | cons t ts ih =>
    simp only [List.flatMap_cons, List.length_append, List.length_map,
      List.length_cons, ih]
    ring

theorem all_violations_len_groups (name dpname : String)
    (gs : List (String × ViolationGroup)) :
    (gs.flatMap fun cg => cg.2.violation_types.flatMap fun vt =>
        cg.2.files.map fun f =>
          ({ violation_type := vt, file := f, constant_name := cg.1,
             referencing_pack_name := name, defining_pack_name := dpname } :
            ViolationIdentifier)).length =
      (gs.map fun cg =>
        cg.2.violation_types.length * cg.2.files.length).sum := by
  induction gs with
  | nil => simp
  | cons g gs ih =>
    simp only [List.flatMap_cons, List.length_append, List.map_cons,
      List.sum_cons, ih]
    congr 1
    exact all_violations_len_inner _ _ _

/-! ## Claim C3 -/

/-- C3: `all_violations` is the full combinatorial expansion of the ledger:
its length is the sum over all defining-pack and constant entries of
`|violation_types| * |files|`; an identifier is emitted exactly when its
violation type and file occur in some constant's group, carrying that
constant, the ledger key as defining pack, and the pack's own name as
referencing pack; and on the spec's example ledger (`::Bar` with one type,
`::Baz` with two types, one shared file) exactly the three expected
identifiers are produced. -/
theorem all_violations_spec :
    (∀ p : Pack, (Pack.all_violations p).length =
      (p.package_todo.violations_by_pack.map fun dp =>
        (dp.2.map fun cg =>
          cg.2.violation_types.length * cg.2.files.length).sum).sum) ∧
    (∀ (p : Pack) (v : ViolationIdentifier),
      v ∈ Pack.all_violations p ↔
        ∃ dp ∈ p.package_todo.violations_by_pack, ∃ cg ∈ dp.2,
          v.violation_type ∈ cg.2.violation_types ∧ v.file ∈ cg.2.files ∧
          v.constant_name = cg.1 ∧ v.referencing_pack_name = p.name ∧
          v.defining_pack_name = dp.1) ∧
    Pack.all_violations examplePack =
      [{ violation_type := "dependency"
         file := "packs/foo/app/services/foo.rb"
         constant_name := "::Bar"
         referencing_pack_name := "packs/foo"
         defining_pack_name := "packs/bar" },
       { violation_type := "dependency"
         file := "packs/foo/app/services/foo.rb"
         constant_name := "::Baz"
         referencing_pack_name := "packs/foo"
         defining_pack_name := "packs/bar" },
       { violation_type := "privacy"
         file := "packs/foo/app/services/foo.rb"
         constant_name := "::Baz"
         referencing_pack_name := "packs/foo"
         defining_pack_name := "packs/bar" }] := by
  refine ⟨fun p => ?_, fun p v => ?_, by decide⟩
  · simp only [Pack.all_violations]
    generalize p.package_todo.violations_by_pack = l
    induction l with
    | nil => simp
    | cons dp l ih =>
      simp only [List.flatMap_cons, List.length_append, List.map_cons,
        List.sum_cons, ih]
      congr 1
      exact all_violations_len_groups p.name dp.1 dp.2
  · constructor
    · intro hv
      simp only [Pack.all_violations, List.mem_flatMap, List.mem_map] at hv
      obtain ⟨dp, hdp, cg, hcg, vt, hvt, f, hf, hv⟩ := hv
      subst hv
      exact ⟨dp, hdp, cg, hcg, hvt, hf, rfl, rfl, rfl⟩
    · rintro ⟨dp, hdp, cg, hcg, hvt, hf, hc, hr, hd⟩
      simp only [Pack.all_violations, List.mem_flatMap, List.mem_map]
      refine ⟨dp, hdp, cg, hcg, v.violation_type, hvt, v.file, hf, ?_⟩
      cases v
      simp_all

/-! ## Sorting machinery for the build comparator -/

instance : IsTotal Pack packLe where
  total a b := by
    rcases Nat.lt_trichotomy b.name.length a.name.length with h | h | h
    · exact Or.inl (Or.inl h)
    · rcases le_total a.name.toList b.name.toList with hle | hle
      · exact Or.inl (Or.inr ⟨h, hle⟩)
      · exact Or.inr (Or.inr ⟨h.symm, hle⟩)
    · exact Or.inr (Or.inl h)

instance : IsTrans Pack packLe where
  trans a b c hab hbc := by
    rcases hab with hab | ⟨hab, hab'⟩ <;> rcases hbc with hbc | ⟨hbc, hbc'⟩
    · exact Or.inl (Nat.lt_trans hbc hab)
    · exact Or.inl (by omega)
    · exact Or.inl (by omega)
    · exact Or.inr ⟨by omega, le_trans hab' hbc'⟩

theorem packLe_antisymm_name {a b : Pack} (h1 : packLe a b)
    (h2 : packLe b a) : a.name = b.name := by
  rcases h1 with h1 | ⟨h1, h1'⟩ <;> rcases h2 with h2 | ⟨h2, h2'⟩
  · omega
  · omega
  · omega
  · exact String.toList_inj.mp (le_antisymm h1' h2')

theorem eq_of_perm_of_sorted_of_antisymm_mem {α : Type} {r : α → α → Prop} :
    ∀ {l₁ l₂ : List α}, l₁.Perm l₂ → l₁.Sorted r → l₂.Sorted r →
      (∀ a ∈ l₁, ∀ b ∈ l₁, r a b → r b a → a = b) → l₁ = l₂ := by
  intro l₁
  induction l₁ with
  | nil =>
    intro l₂ hp _ _ _
    exact (List.Perm.eq_nil hp.symm).symm
  | cons a t₁ ih =>
    intro l₂ hp hs₁ hs₂ hanti
    cases l₂ with
    | nil => exact absurd (List.Perm.eq_nil hp) (by simp)
    | cons b t₂ =>
      by_cases hab : a = b
      · subst hab
        have ht : t₁.Perm t₂ := hp.cons_inv
        have htail := ih ht (List.sorted_cons.mp hs₁).2
          (List.sorted_cons.mp hs₂).2
          (fun x hx y hy hxy hyx =>
            hanti x (List.mem_cons_of_mem a hx) y
              (List.mem_cons_of_mem a hy) hxy hyx)
        rw [htail]
      · have hbmem : b ∈ a :: t₁ := hp.mem_iff.mpr (List.mem_cons_self b t₂)
        have hbt₁ : b ∈ t₁ := by
          rcases List.mem_cons.mp hbmem with h | h
          · exact absurd h.symm hab
          · exact h
        have hamem : a ∈ b :: t₂ := hp.mem_iff.mp (List.mem_cons_self a t₁)
        have hat₂ : a ∈ t₂ := by
          rcases List.mem_cons.mp hamem with h | h
          · exact absurd h hab
          · exact h
        have hrab : r a b := List.rel_of_sorted_cons hs₁ b hbt₁
        have hrba : r b a := List.rel_of_sorted_cons hs₂ a hat₂
        exact absurd (hanti a (List.mem_cons_self a t₁) b hbmem hrab hrba) hab

/-! ## Claim C2 -/

/-- C2 counterexample: the claim fails on the code for an input set holding
two packs with the same name but different dependency sets (which the
`HashSet<Pack>` dedup, based on full structural equality, keeps both of):
the two iteration orders of that same set yield different `build` outputs,
and the output sequence is not deduplicated by name. -/
theorem build_claim_counterexample :
    (hashSetOfList [samePackA, samePackB]).Perm
      (hashSetOfList [samePackB, samePackA]) ∧
    PackSet.build (hashSetOfList [samePackA, samePackB]) ≠
      PackSet.build (hashSetOfList [samePackB, samePackA]) ∧
    ¬ ((PackSet.build (hashSetOfList [samePackA, samePackB])).packs.map
        Pack.name).Nodup := by
  refine ⟨?_, by decide, by decide⟩
  have h1 : hashSetOfList [samePackA, samePackB] = [samePackA, samePackB] :=
    by decide
  have h2 : hashSetOfList [samePackB, samePackA] = [samePackB, samePackA] :=
    by decide
  rw [h1, h2]
  exact List.Perm.swap samePackB samePackA []

/-- C2 (amended): `build` stably sorts the input's iteration order by
descending name length, ties by ascending name (so its output is a sorted
permutation of the input), and it is deterministic regardless of the
iteration order of the input set provided all pack names are distinct;
the deduplication itself is by full structural equality in the input
`HashSet<Pack>`, not by name, so same-named packs differing elsewhere both
survive (see the counterexample). -/
theorem build_spec :
    (∀ l : List Pack,
      (PackSet.build l).packs.Perm l ∧
      (PackSet.build l).packs.Sorted packLe) ∧
    (∀ l₁ l₂ : List Pack, l₁.Perm l₂ → (l₁.map Pack.name).Nodup →
      PackSet.build l₁ = PackSet.build l₂) := by
  constructor
  · intro l
    exact ⟨List.perm_insertionSort packLe l, List.sorted_insertionSort packLe l⟩
  · intro l₁ l₂ hp hnd
    have hs : List.insertionSort packLe l₁ = List.insertionSort packLe l₂ := by
      apply eq_of_perm_of_sorted_of_antisymm_mem
      · exact (List.perm_insertionSort packLe l₁).trans
          (hp.trans (List.perm_insertionSort packLe l₂).symm)
      · exact List.sorted_insertionSort packLe l₁
      · exact List.sorted_insertionSort packLe l₂
      · intro x hx y hy hxy hyx
        have hx' : x ∈ l₁ := (List.perm_insertionSort packLe l₁).subset hx
        have hy' : y ∈ l₁ := (List.perm_insertionSort packLe l₁).subset hy
        exact List.inj_on_of_nodup_map hnd hx' hy'
          (packLe_antisymm_name hxy hyx)
    simp only [PackSet.build, hs]

theorem build_spec_witness :
    PackSet.build [fooPack, fooBarPack] =
      PackSet.build [fooBarPack, fooPack] ∧
    (PackSet.build [fooPack, fooBarPack]).packs.Perm
      [fooPack, fooBarPack] :=
  ⟨build_spec.2 [fooPack, fooBarPack] [fooBarPack, fooPack]
      (List.Perm.swap fooBarPack fooPack []) (by decide),
    (build_spec.1 [fooPack, fooBarPack]).1⟩

/-! ## Claim C6 -/

/-- C6 counterexample: two packs with the same name but different dependency
sets are not equal (`PartialEq` derives over all fields), and the
`HashSet<Pack>` dedup keeps both of them, so the registry does not hold
exactly one entry for that name. -/
theorem pack_identity_counterexample :
    samePackA.name = samePackB.name ∧ samePackA ≠ samePackB ∧
    (hashSetOfList [samePackA, samePackB]).length ≠ 1 := by decide

/-- C6 (amended): pack hashing is by name alone (`Pack.hashKey`), but pack
equality is full structural equality; the dedup of the input set collapses
only fully identical packs, keeps both same-named packs that differ in
another field, and the name-indexed table of `build` then retains exactly
one entry for the shared name. -/
theorem pack_identity_spec :
    (∀ a b : Pack, a = b → a.hashKey = b.hashKey) ∧
    (samePackA.name = samePackB.name ∧ samePackA ≠ samePackB) ∧
    hashSetOfList [samePackA, samePackB] = [samePackA, samePackB] ∧
    hashSetOfList [samePackA, samePackA] = [samePackA] ∧
    (PackSet.build (hashSetOfList [samePackA, samePackB])).indexed_packs.map
        Prod.fst = [samePackA.name] := by
  exact ⟨fun a b h => by rw [h], by decide, by decide, by decide, by decide⟩

theorem pack_identity_spec_witness :
    samePackA.hashKey = samePackA.hashKey ∧
    samePackA.name = samePackB.name :=
  ⟨pack_identity_spec.1 samePackA samePackA rfl, pack_identity_spec.2.1.1⟩

/-! ## Index lookup lemmas -/

theorem find?_filter_of_imp {α : Type} (p q : α → Bool) (l : List α)
    (h : ∀ a, p a = true → q a = true) :
    (l.filter q).find? p = l.find? p := by
  induction l with
  | nil => rfl
  | cons a l ih =>
    by_cases hp : p a
    · have hq := h a hp
      simp [List.filter_cons, hq, List.find?_cons, hp, ih]
    · by_cases hq : q a
      · simp [List.filter_cons, hq, List.find?_cons, hp, ih]
      · simp [List.filter_cons, hq, List.find?_cons, hp, ih]

theorem hmGet_insert (m : List (String × Pack)) (k : String) (v : Pack)
    (k' : String) :
    hmGet (hmInsert m k v) k' = if k' = k then some v else hmGet m k' := by
  by_cases h : k' = k
  · subst h
    simp [hmGet, hmInsert, List.find?_cons]
  · have hfil : ((m.filter fun kv => !(kv.1 == k)).find?
        fun kv => kv.1 == k') = m.find? fun kv => kv.1 == k' := by
      apply find?_filter_of_imp
      intro a ha
      have : a.1 = k' := by simpa using ha
      simp [this, h]
    simp [hmGet, hmInsert, List.find?_cons, beq_iff_eq, Ne.symm h, hfil, h]

theorem hmGet_foldl_insert (l : List Pack) :
    ∀ (m : List (String × Pack)) (k : String),
      hmGet (l.foldl (fun m p => hmInsert m p.name p) m) k =
        (l.reverse.find? fun p => p.name == k).or (hmGet m k) := by
  induction l with
  | nil => intro m k; simp
  | cons p t ih =>
    intro m k
    simp only [List.foldl_cons, ih, List.reverse_cons, List.find?_append]
    rw [hmGet_insert]
    by_cases h : k = p.name
    · subst h
      have hp1 : [p].find? (fun q => q.name == p.name) = some p := by
        simp [List.find?_cons]
      rw [hp1, if_pos rfl]
      cases t.reverse.find? fun q => q.name == p.name <;> simp [Option.or]
    · have hbeq : (p.name == k) = false := by
        simp only [beq_eq_false_iff_ne, ne_eq]
        exact fun hh => h hh.symm
      have hp1 : [p].find? (fun q => q.name == k) = none := by
        simp [List.find?_cons, hbeq]
      rw [hp1, if_neg h]
      cases t.reverse.find? fun q => q.name == k <;> simp [Option.or]

/-! ## Claim C7 -/

/-- C7: `for_pack` is an index lookup: for every name carried by some pack
of the registry, it returns a pack of the registry bearing that name; for a
name no registry pack carries, the lookup yields nothing — the Rust
`.unwrap()` then panics, a fatal programming-error-class fault modelled by
`none` rather than a recoverable error value. -/
theorem for_pack_lookup_spec (l : List Pack) (k : String) :
    ((∃ p ∈ (PackSet.build l).packs, p.name = k) →
      ∃ p, (PackSet.build l).for_pack? k = some p ∧ p.name = k ∧
        p ∈ (PackSet.build l).packs) ∧
    ((∀ p ∈ (PackSet.build l).packs, p.name ≠ k) →
      (PackSet.build l).for_pack? k = none) := by
  have hpacks : (PackSet.build l).packs = List.insertionSort packLe l := rfl
  have hfp : (PackSet.build l).for_pack? k =
      (List.insertionSort packLe l).reverse.find? fun p => p.name == k := by
    have := hmGet_foldl_insert (List.insertionSort packLe l) [] k
    simp only [PackSet.for_pack?, PackSet.build] at *
    rw [this]
    cases hf : (List.insertionSort packLe l).reverse.find?
        fun p => p.name == k with
    | none => simp [Option.or, hmGet]
    | some q => simp [Option.or]
  constructor
  · rintro ⟨p, hp, hname⟩
    rw [hpacks] at hp
    have hex : ∃ x ∈ (List.insertionSort packLe l).reverse,
        (x.name == k) = true :=
      ⟨p, List.mem_reverse.mpr hp, by simp [hname]⟩
    obtain ⟨q, hq⟩ := Option.isSome_iff_exists.mp (List.find?_isSome.mpr hex)
    refine ⟨q, by rw [hfp]; exact hq, ?_, ?_⟩
    · simpa using List.find?_some hq
    · rw [hpacks]
      exact List.mem_reverse.mp (List.mem_of_find?_eq_some hq)
  · intro h
    rw [hfp]
    apply List.find?_eq_none.mpr
    intro x hx
    simp only [beq_iff_eq]
    exact h x (hpacks ▸ List.mem_reverse.mp hx)

theorem for_pack_lookup_spec_witness :
    (∃ p, (PackSet.build [fooPack]).for_pack? "packs/foo" = some p ∧
      p.name = "packs/foo" ∧ p ∈ (PackSet.build [fooPack]).packs) ∧
    (PackSet.build [fooPack]).for_pack? "packs/zz" = none :=
  ⟨(for_pack_lookup_spec [fooPack] "packs/foo").1
      ⟨fooPack, by decide, by decide⟩,
    (for_pack_lookup_spec [fooPack] "packs/zz").2 (by decide)⟩

/-! ## Claim C9 -/

/-- C9: serializing a violation ledger and deserializing the result yields a
structurally equal ledger (round trip), for every ledger value. -/
theorem package_todo_round_trip (t : PackageTodo) :
    deserializePackageTodo (serializePackageTodo t) = some t := by
  obtain ⟨l⟩ := t
  simp [serializePackageTodo, deserializePackageTodo,
    mapMOption_deserialize_top]

/-! ## Claim C8 -/

/-- C8: a manifest omitting `enforce_dependencies` deserializes to the Off
(`False`) setting, and the admissible states of the field are exactly the
strings `false`, `true` and `strict`, with `false` the default. -/
theorem enforce_dependencies_default_spec :
    (∀ m : Manifest, m.enforce_dependencies = none →
      parseCheckerSetting (rawPackOfManifest m).enforce_dependencies =
        some CheckerSetting.False) ∧
    (∀ s : String, (parseCheckerSetting s).isSome ↔
      s = "false" ∨ s = "true" ∨ s = "strict") ∧
    parseCheckerSetting default_enforce_dependencies =
      some CheckerSetting.False ∧
    parseCheckerSetting "true" = some CheckerSetting.True ∧
    parseCheckerSetting "strict" = some CheckerSetting.Strict := by
  refine ⟨fun m h => ?_, fun s => ?_, rfl, rfl, rfl⟩
  · simp [rawPackOfManifest, h, default_enforce_dependencies,
      parseCheckerSetting]
  · constructor
    · intro h
      unfold parseCheckerSetting at h
      split at h <;> simp_all
    · rintro (rfl | rfl | rfl) <;> rfl

theorem enforce_dependencies_default_spec_witness :
    parseCheckerSetting
        (rawPackOfManifest ⟨none, none, none⟩).enforce_dependencies =
      some CheckerSetting.False :=
  enforce_dependencies_default_spec.1 ⟨none, none, none⟩ rfl

/-! ## Claim C4 -/

theorem foldlM_except_error {α β E : Type}
    (f : β → α → Except E β) (err : α → E → Prop)
    (hstep : ∀ b a e, f b a = Except.error e → err a e)
    (hstep2 : ∀ b a, (∃ e, err a e) →
      ∃ e, f b a = Except.error e ∧ err a e) :
    ∀ (l : List α) (b : β),
      (∀ e, l.foldlM f b = Except.error e → ∃ a ∈ l, err a e) ∧
      ((∃ a ∈ l, ∃ e, err a e) →
        ∃ e, l.foldlM f b = Except.error e ∧ ∃ a ∈ l, err a e) := by
  intro l
  induction l with
  | nil =>
    intro b
    constructor
    · intro e he
      rw [List.foldlM_nil] at he
      exact absurd he (by simp [pure, Except.pure])
    · rintro ⟨a, ha, -⟩
      simp at ha
  | cons x t ih =>
    intro b
    cases hfx : f b x with
    | error e0 =>
      have hres : (x :: t).foldlM f b = Except.error e0 := by
        rw [List.foldlM_cons, hfx]; rfl
      constructor
      · intro e he
        rw [hres] at he
        injection he with he'
        exact ⟨x, List.mem_cons_self x t, hstep b x e (he' ▸ hfx)⟩
      · intro _
        exact ⟨e0, hres, x, List.mem_cons_self x t, hstep b x e0 hfx⟩
    | ok b' =>
      have hres : (x :: t).foldlM f b = t.foldlM f b' := by
        rw [List.foldlM_cons, hfx]; rfl
      constructor
      · intro e he
        rw [hres] at he
        obtain ⟨a, ha, hae⟩ := (ih b').1 e he
        exact ⟨a, List.mem_cons_of_mem x ha, hae⟩
      · rintro ⟨a, ha, he⟩
        rcases List.mem_cons.mp ha with rfl | hat
        · obtain ⟨e, hfe, -⟩ := hstep2 b a he
          rw [hfx] at hfe
          exact absurd hfe (by simp)
        · obtain ⟨e, hfold, a', ha', hae'⟩ := (ih b').2 ⟨a, hat, he⟩
          exact ⟨e, by rw [hres]; exact hfold, a',
            List.mem_cons_of_mem x ha', hae'⟩

/-- C4: if resolving any unresolved reference of any processed file yields
an error, the whole `get_all_references` invocation returns an error — an
error actually produced by one of the resolutions — and, the result being a
single `Except` value, no reference list is produced alongside it; there is
no partial-result mode. Conversely any error the pipeline returns comes
from some file's resolution. -/
theorem get_all_references_error_spec {E : Type}
    (resolve : UnresolvedReference → List String → Except E (List Reference))
    (files : List ProcessedFile) :
    (∀ e, get_all_references resolve files = Except.error e →
      ∃ pf ∈ files, ∃ ur ∈ pf.unresolved_references,
        resolve ur pf.absolute_path = Except.error e) ∧
    ((∃ pf ∈ files, ∃ ur ∈ pf.unresolved_references, ∃ e,
        resolve ur pf.absolute_path = Except.error e) →
      ∃ e, get_all_references resolve files = Except.error e ∧
        ∃ pf ∈ files, ∃ ur ∈ pf.unresolved_references,
          resolve ur pf.absolute_path = Except.error e) := by
  have inner := fun (path : List String) =>
    foldlM_except_error
      (fun (a : List Reference) (ur : UnresolvedReference) =>
        (resolve ur path).map fun refs => a ++ refs)
      (fun ur e => resolve ur path = Except.error e)
      (fun a ur e h => by
        have h2 : (resolve ur path).map (fun refs => a ++ refs) =
            Except.error e := h
        cases hr : resolve ur path with
        | error e' =>
          rw [hr] at h2
          injection h2 with h'
          rw [← h']; exact hr
        | ok refs =>
          rw [hr] at h2
          exact absurd h2 (by simp [Except.map]))
      (fun a ur he => by
        obtain ⟨e, he⟩ := he
        refine ⟨e, ?_, he⟩
        show (resolve ur path).map (fun refs => a ++ refs) = Except.error e
        rw [he]; rfl)
  have outer := foldlM_except_error
      (fun (acc : List Reference) (pf : ProcessedFile) =>
        pf.unresolved_references.foldlM
          (fun a ur => (resolve ur pf.absolute_path).map fun refs => a ++ refs)
          acc)
      (fun pf e => ∃ ur ∈ pf.unresolved_references,
        resolve ur pf.absolute_path = Except.error e)
      (fun acc pf e h =>
        (inner pf.absolute_path pf.unresolved_references acc).1 e h)
      (fun acc pf he => by
        obtain ⟨e, ur, hur, hres⟩ := he
        exact (inner pf.absolute_path pf.unresolved_references acc).2
          ⟨ur, hur, e, hres⟩)
  constructor
  · intro e he
    exact (outer files []).1 e he
  · rintro ⟨pf, hpf, ur, hur, e, hres⟩
    obtain ⟨e', hfold, pf', hpf', hur'⟩ :=
      (outer files []).2 ⟨pf, hpf, e, ur, hur, hres⟩
    exact ⟨e', hfold, pf', hpf', hur'⟩

theorem get_all_references_error_spec_witness :
    ∃ e, get_all_references badResolve [badFile] = Except.error e ∧
      ∃ pf ∈ [badFile], ∃ ur ∈ pf.unresolved_references,
        badResolve ur pf.absolute_path = Except.error e :=
  (get_all_references_error_spec badResolve [badFile]).2
    ⟨badFile, List.mem_cons_self badFile [],
      { name := "Bad", namespace_path := []
        location := { line := 1, column := 1 } },
      List.mem_cons_self _ _, "boom", rfl⟩

/-! ## Claim C5 -/

theorem find_pack_name_loop_result (fp : String) :
    ∀ (l : List String) (pack_name : String) (containing : Bool),
      find_pack_name_loop fp l pack_name containing = pack_name ∨
        (find_pack_name_loop fp l pack_name containing ∈ l ∧
          strContainsSub fp (find_pack_name_loop fp l pack_name containing)) := by
  intro l
  induction l with
  | nil => intro pn c; left; rfl
  | cons x t ih =>
    intro pn c
    unfold find_pack_name_loop
    by_cases hx : strContainsSub fp x
    · rw [if_pos hx]
      by_cases hlen : pn.length < x.length
      · rw [if_pos hlen]
        rcases ih x true with h | ⟨hm, hc⟩
        · right
          refine ⟨?_, ?_⟩
          · rw [h]; exact List.mem_cons_self x t
          · rw [h]; exact hx
        · right; exact ⟨List.mem_cons_of_mem x hm, hc⟩
      · rw [if_neg hlen]
        rcases ih pn c with h | ⟨hm, hc⟩
        · left; exact h
        · right; exact ⟨List.mem_cons_of_mem x hm, hc⟩
    · rw [if_neg hx]
      cases c with
      | true => left; rw [if_pos rfl]
      | false =>
        rw [if_neg (by simp)]
        rcases ih pn false with h | ⟨hm, hc⟩
        · left; exact h
        · right; exact ⟨List.mem_cons_of_mem x hm, hc⟩

/-- C5 counterexample: `find_pack_name` is not a longest-substring-
containment match. On the sorted names `packs/aa`, `packs/b`, `packs/ccc`
and the path `packs/ccc/packs/aa/f.rb`, the loop keeps `packs/aa`, then
breaks at the non-contained `packs/b`, so it never reaches the longer
contained name `packs/ccc`, while the spec-side longest-containment match
returns `packs/ccc`. -/
theorem find_pack_name_not_longest_containment :
    find_pack_name ["packs/aa", "packs/b", "packs/ccc"]
        "packs/ccc/packs/aa/f.rb" = some "packs/aa" ∧
    longest_contained_pack_name ["packs/aa", "packs/b", "packs/ccc"]
        "packs/ccc/packs/aa/f.rb" = some "packs/ccc" ∧
    ("packs/aa" : String) ≠ "packs/ccc" := by decide

/-- C5 (amended): `find_pack_name` scans the alphabetically sorted pack
names keeping the longest substring-contained name seen so far, but breaks
at the first non-contained name once some name has matched, so it returns a
contained pack name (or `"."`) that need not be the globally longest (see
the counterexample); and it can disagree with `for_file`'s directory-prefix
match: with only pack `packs/foo`, `find_pack_name` attributes
`packs/foo_extra/x.rb` to `packs/foo` while `for_file` finds no owner. -/
theorem find_pack_name_amended_spec :
    (∀ (names : List String) (fp : String) (r : String),
      find_pack_name names fp = some r →
        r = "." ∨ (r ∈ names ∧ strContainsSub fp r)) ∧
    (find_pack_name (PackageNames.new [fooPack]) "packs/foo_extra/x.rb" =
        some "packs/foo" ∧
      (PackSet.build [fooPack]).for_file ["packs", "foo_extra", "x.rb"] =
        none) := by
  refine ⟨fun names fp r h => ?_, by decide, by decide⟩
  have hres := find_pack_name_loop_result fp names "." false
  unfold find_pack_name at h
  injection h with h'
  rcases hres with hh | ⟨hm, hc⟩
  · left; rw [← h', hh]
  · right; rw [← h']; exact ⟨hm, hc⟩

theorem find_pack_name_amended_spec_witness :
    ("packs/foo" : String) = "." ∨
      (("packs/foo" : String) ∈ PackageNames.new [fooPack] ∧
        strContainsSub "packs/foo_extra/x.rb" "packs/foo") :=
  find_pack_name_amended_spec.1 (PackageNames.new [fooPack])
    "packs/foo_extra/x.rb" "packs/foo" (by decide)

/-! ## Claim C10 -/

theorem find_pack_name_loop_no_match (fp : String) :
    ∀ l : List String, (∀ n ∈ l, ¬ strContainsSub fp n) →
      ∀ pn, find_pack_name_loop fp l pn false = pn := by
  intro l
  induction l with
  | nil => intro _ pn; rfl
  | cons x t ih =>
    intro h pn
    unfold find_pack_name_loop
    rw [if_neg (h x (List.mem_cons_self x t)), if_neg (by simp)]
    exact ih (fun n hn => h n (List.mem_cons_of_mem x hn)) pn

theorem efGet_extra_fields_referencing (names : List String)
    (rf : String) (df : Option String) :
    efGet (extra_reference_fields_fn names rf df) "referencing_pack_name" =
      some (find_pack_name_loop rf names "." false) := by
  unfold extra_reference_fields_fn find_pack_name
  cases df with
  | none => simp [efInsert, efGet, List.find?_cons]
  | some d => simp [efInsert, efGet, List.find?_cons, List.filter]

theorem filter_pks_references_length (l : List RawReference)
    (h : ∀ r ∈ l, (efGet r.extra_fields "referencing_pack_name").isSome) :
    (filter_pks_references l).length = l.length := by
  induction l with
  | nil => rfl
  | cons r t ih =>
    have hr := h r (List.mem_cons_self r t)
    unfold filter_pks_references
    cases hg : efGet r.extra_fields "referencing_pack_name" with
    | none => rw [hg] at hr; simp at hr
    | some rp =>
      simp only [List.filterMap_cons, hg, List.length_cons]
      have ht := ih fun x hx => h x (List.mem_cons_of_mem r hx)
      unfold filter_pks_references at ht
      rw [ht]

/-- C10: `find_pack_name` never returns `None` — every path, even one
containing no pack name, is attributed to some pack name or to `"."` — so
every reference gets a `referencing_pack_name` extra field and the filter of
`get_all_references_new` drops nothing: the output has one reference per raw
reference. By contrast `for_file` returns no owner for a path outside every
pack root, while `find_pack_name` answers `"."` on it. -/
theorem find_pack_name_total_spec :
    (∀ (names : List String) (fp : String), ∃ r,
      find_pack_name names fp = some r) ∧
    (∀ (names : List String) (fp : String),
      (∀ n ∈ names, ¬ strContainsSub fp n) →
        find_pack_name names fp = some ".") ∧
    (∀ (packs : List Pack) (raw : List RawReference),
      (get_all_references_new packs raw).length = raw.length) ∧
    (find_pack_name (PackageNames.new [fooPack]) "lib/x.rb" = some "." ∧
      (PackSet.build [fooPack]).for_file ["lib", "x.rb"] = none) := by
  refine ⟨fun names fp => ⟨find_pack_name_loop fp names "." false, rfl⟩,
    fun names fp h => ?_, fun packs raw => ?_, by decide, by decide⟩
  · unfold find_pack_name
    rw [find_pack_name_loop_no_match fp names h "."]
  · unfold get_all_references_new
    rw [filter_pks_references_length, List.length_map]
    intro r hr
    obtain ⟨r0, hr0, hr0'⟩ := List.mem_map.mp hr
    rw [← hr0']
    simp [efGet_extra_fields_referencing]

theorem find_pack_name_total_spec_witness :
    find_pack_name ["packs/foo"] "lib/y.rb" = some "." :=
  find_pack_name_total_spec.2.1 ["packs/foo"] "lib/y.rb" (by decide)

end PacksModel
